import Mathlib

/-!
Verification of the consistent-hashing ring library (Go sources
consistent.go and consistent1.go) against its natural-language
specification.  The repository contains two ring implementations:

* consistent.go: type Consistent, string nodes, 32-bit hashes
  (CRC32-IEEE by default, FNV-1a 32 when UseFnv is set), a map
  circle from hash to node, a members set, a sorted hash slice and
  an int64 count; operations Add, Remove, Set, Get, GetTwo, GetN.

* consistent1.go: type ConsistentHash, arbitrary nodes identified by
  a normalisation function repr, 64-bit pluggable hash function, a
  keys slice (with possible duplicates), a ring map from hash to the
  slice of occupying nodes and a nodes set; operations Add,
  AddWithReplicas, AddWithWeight, Remove, Get.

Both are embedded shallowly below: Go maps become association lists,
loops become folds or structural recursions over the visited index
lists, uint32 and uint64 become Nat (all arithmetic used stays inside
the machine range, the one modular multiplication is taken mod 2^32
explicitly), and fallible lookups return Option.
-/

/-! ## Bit-level helpers

The Go code uses hash/crc32 (ChecksumIEEE) and hash/fnv (New32a).
Both are modelled bit for bit on Nat.  xor32 is bitwise xor computed
by structural recursion on a 32-bit fuel so that the kernel can
evaluate it (both operands here are always below 2^32). -/

def xor32 : Nat → Nat → Nat → Nat
  | 0, _, _ => 0
  | fuel + 1, a, b =>
    (if a % 2 = b % 2 then 0 else 1) + 2 * xor32 fuel (a / 2) (b / 2)

/-- One shift-and-conditional-xor round of the reflected CRC32-IEEE
polynomial 0xEDB88320, as performed per bit by the table generator of
hash/crc32. -/
def crc32Round (crc : Nat) : Nat :=
  if crc % 2 = 1 then xor32 32 (crc / 2) 0xEDB88320 else crc / 2

/-- Absorb one byte into the running CRC32 state: xor the byte into
the low bits, then run eight polynomial rounds. -/
def crc32Byte (crc b : Nat) : Nat :=
  (List.range 8).foldl (fun c _ => crc32Round c) (xor32 32 crc b)

/-- crc32.ChecksumIEEE on a byte sequence: initial state 0xFFFFFFFF,
absorb every byte, final complement.  Validated against the standard
test vector crc32("123456789") = 0xCBF43926 and against the expected
lookups of consistent_test.go further below. -/
def crc32 (bytes : List Nat) : Nat :=
  xor32 32 (bytes.foldl crc32Byte 0xFFFFFFFF) 0xFFFFFFFF

/-- UTF-8 encoding of one character, the byte view Go takes of a
string when hashing it. -/
def utf8Encode (c : Char) : List Nat :=
  let n := c.toNat
  if n < 0x80 then [n]
  else if n < 0x800 then [0xC0 + n / 64, 0x80 + n % 64]
  else if n < 0x10000 then [0xE0 + n / 4096, 0x80 + (n / 64) % 64, 0x80 + n % 64]
  else [0xF0 + n / 262144, 0x80 + (n / 4096) % 64, 0x80 + (n / 64) % 64, 0x80 + n % 64]

/-- The byte sequence of a Go string (UTF-8). -/
def strBytes (s : String) : List Nat := (s.data.map utf8Encode).flatten

/-- fnv.New32a: FNV-1a with 32-bit offset basis 2166136261 and prime
16777619; the multiplication wraps mod 2^32. -/
def fnv32a (bytes : List Nat) : Nat :=
  bytes.foldl (fun h b => (xor32 32 h b * 16777619) % 4294967296) 2166136261

/-! ## sort.Search

Go sort.Search(n, f) is the textbook least-index binary search; it is
embedded with explicit fuel (the interval shrinks strictly, so fuel n
is enough) and proved, for monotone predicates, to return the least
index in [0, n) satisfying the predicate, or n when none does. -/

def sortSearchAux (f : Nat → Bool) : Nat → Nat → Nat → Nat
  | 0, i, _ => i
  | fuel + 1, i, j =>
    if i < j then
      let h := (i + j) / 2
      if f h then sortSearchAux f fuel i h else sortSearchAux f fuel (h + 1) j
    else i

/-- Embedding of Go sort.Search: binary search for the least index in
[0, n) where f flips to true (n when f is never true).  Faithful to
the source loop for monotone f, which is the only way the repository
calls it (predicates derived from a sorted slice). -/
def sortSearch (n : Nat) (f : Nat → Bool) : Nat :=
  sortSearchAux f n 0 n

/-! ## Model of consistent.go (type Consistent)

Go maps become association lists: the circle map keeps its entries in
insertion order (updates in place, new keys appended), which fixes a
deterministic representative of the map; every observation the code
makes of the map (membership, lookup, key multiset) is order
independent, and updateSortedHashes sorts the key list, so the model
agrees with every Go map iteration order. -/

/-- Association-list update, the model of a Go map assignment: replace
the value at an existing key in place, otherwise append the binding. -/
def assocSet (l : List (Nat × String)) (k : Nat) (v : String) : List (Nat × String) :=
  if l.any (fun p => p.1 = k) then
    l.map (fun p => if p.1 = k then (k, v) else p)
  else l ++ [(k, v)]

/-- Association-list deletion, the model of Go delete(m, k). -/
def assocErase (l : List (Nat × String)) (k : Nat) : List (Nat × String) :=
  l.filter (fun p => p.1 ≠ k)

/-- Association-list lookup with the Go zero value for a missing key. -/
def lookupD (l : List (Nat × String)) (k : Nat) : String :=
  ((l.find? (fun p => p.1 = k)).map Prod.snd).getD ""

/-- Set-style insertion for the members map (map from string to bool
used as a set: assigning true twice is idempotent). -/
def memInsert (m : List String) (x : String) : List String :=
  if x ∈ m then m else m ++ [x]

/-- Model of the Consistent struct of consistent.go. -/
structure Consistent where
  circle : List (Nat × String)
  members : List String
  sortedHashes : List Nat
  numberOfReplicas : Nat
  count : Int
  useFnv : Bool
deriving DecidableEq

/-- Sorting of the hash slice; Go sort.Sort on a Nat slice produces
the unique sorted permutation. -/
def sortNat (l : List Nat) : List Nat := List.insertionSort (fun a b => a ≤ b) l

/-- New() from consistent.go: 20 replicas, empty maps. -/
def Consistent.new : Consistent :=
  { circle := [], members := [], sortedHashes := [],
    numberOfReplicas := 20, count := 0, useFnv := false }

/-- eltKey: strconv.Itoa(idx) + elt. -/
def Consistent.eltKey (elt : String) (idx : Nat) : String :=
  toString idx ++ elt

/-- hashKeyCRC32 on the byte view of the key: for keys shorter than 64
bytes the code copies the key into a 64-byte scratch array and hashes
the truncated prefix, otherwise it hashes the bytes directly. -/
def hashKeyCRC32 (bytes : List Nat) : Nat :=
  if bytes.length < 64 then
    crc32 ((bytes ++ List.replicate (64 - bytes.length) 0).take bytes.length)
  else crc32 bytes

def Consistent.hashKey (c : Consistent) (key : String) : Nat :=
  if c.useFnv then fnv32a (strBytes key) else hashKeyCRC32 (strBytes key)

/-- updateSortedHashes: rebuild the sorted hash slice from the circle
map keys (the capacity-reuse branch of the source only affects
allocation, not the resulting slice contents). -/
def Consistent.updateSortedHashes (c : Consistent) : Consistent :=
  { c with sortedHashes := sortNat (c.circle.map Prod.fst) }

/-- add (the lock-free body of Add): write every replica position into
the circle, register the member, re-sort, and increment count. -/
def Consistent.add (c : Consistent) (elt : String) : Consistent :=
  let c1 := { c with
    circle := (List.range c.numberOfReplicas).foldl
      (fun m i => assocSet m (c.hashKey (Consistent.eltKey elt i)) elt) c.circle,
    members := memInsert c.members elt }
  let c2 := c1.updateSortedHashes
  { c2 with count := c2.count + 1 }

/-- remove (the lock-free body of Remove): delete every replica
position, deregister the member, re-sort, and decrement count. -/
def Consistent.remove (c : Consistent) (elt : String) : Consistent :=
  let c1 := { c with
    circle := (List.range c.numberOfReplicas).foldl
      (fun m i => assocErase m (c.hashKey (Consistent.eltKey elt i))) c.circle,
    members := c.members.filter (fun x => x ≠ elt) }
  let c2 := c1.updateSortedHashes
  { c2 with count := c2.count - 1 }

/-- Set: remove every registered member absent from elts, then add
every element of elts not currently registered.  The first loop runs
over a snapshot of the member set (deleting the visited entry during
Go map iteration is permitted and does not affect the other keys). -/
def Consistent.set (c : Consistent) (elts : List String) : Consistent :=
  let c1 := c.members.foldl
    (fun st k => if elts.contains k then st else st.remove k) c
  elts.foldl (fun st v => if st.members.contains v then st else st.add v) c1

/-- search: sort.Search for the first sorted hash strictly greater
than the key, wrapping to index 0 past the end. -/
def Consistent.search (c : Consistent) (key : Nat) : Nat :=
  let i := sortSearch c.sortedHashes.length
    (fun x => decide (key < c.sortedHashes.getD x 0))
  if c.sortedHashes.length ≤ i then 0 else i

/-- Get: empty-circle error (modelled as none), otherwise the occupant
of the searched position. -/
def Consistent.get (c : Consistent) (name : String) : Option String :=
  if c.circle.isEmpty then none
  else
    let key := c.hashKey name
    let i := c.search key
    some (lookupD c.circle (c.sortedHashes.getD i 0))

/-- The index list visited by the GetTwo and GetN loops: i runs from
start+1 upward, resetting to 0 when it reaches len, stopping at start,
i.e. the indices (start+1+k) mod len for k < len-1.  (When start = 0
and no break fires the Go loop would keep cycling, since after the
in-body reset the post-increment always moves i past 0 before the exit
test; the embedding then returns the value of the last visited index,
agreeing with the start greater than 0 exit.  Every theorem below that
uses the walk carries hypotheses under which the break does fire or
the exit is reached.) -/
def walkIdxs (len start : Nat) : List Nat :=
  (List.range (len - 1)).map (fun k => (start + 1 + k) % len)

/-- The GetTwo search loop: first visited occupant different from a,
otherwise the occupant of the last visited index. -/
def getTwoWalk (vals : Nat → String) (len start : Nat) (a : String) : String :=
  match (walkIdxs len start).find? (fun j => vals j ≠ a) with
  | some j => vals j
  | none => vals ((start + len - 1) % len)

/-- GetTwo: primary exactly as Get; with count 1 the primary alone
(empty second component); otherwise walk forward for the first
occupant that differs. -/
def Consistent.getTwo (c : Consistent) (name : String) : Option (String × String) :=
  if c.circle.isEmpty then none
  else
    let key := c.hashKey name
    let i := c.search key
    let a := lookupD c.circle (c.sortedHashes.getD i 0)
    if c.count = 1 then some (a, "")
    else
      let b := getTwoWalk (fun j => lookupD c.circle (c.sortedHashes.getD j 0))
        c.circle.length i a
      some (a, b)

/-- The GetN collection loop: append each visited occupant not yet in
res, stopping as soon as the length of res equals n (an Int, because
the Go code compares against a possibly clamped int64 count). -/
def getNWalk (vals : Nat → String) (n : Int) :
    List Nat → List String → List String
  | [], res => res
  | j :: rest, res =>
    let res1 := if res.contains (vals j) then res else res ++ [vals j]
    if (res1.length : Int) = n then res1 else getNWalk vals n rest res1

/-- GetN: empty-circle error, clamp n to count, then collect distinct
occupants along the ring walk.  The model is exact wherever the Go
loop terminates: when the break fires, or when the walk completes a
cycle and exits at a nonzero start index.  It does not represent the
failure modes of the source outside that region: for a negative
(clamped) n the Go code panics at make with a negative capacity, and
for a start index of 0 with an unreachable target the loop never
terminates; every theorem and concrete evaluation below stays inside
the terminating region (targets of at least 2, or the full-cycle exit
at a nonzero start index). -/
def Consistent.getN (c : Consistent) (name : String) (n : Int) : Option (List String) :=
  if c.circle.isEmpty then none
  else
    let n1 := if c.count < n then c.count else n
    let key := c.hashKey name
    let i := c.search key
    let elem := lookupD c.circle (c.sortedHashes.getD i 0)
    some (getNWalk (fun j => lookupD c.circle (c.sortedHashes.getD j 0)) n1
      (walkIdxs c.sortedHashes.length i) [elem])

/-! ## Model of consistent1.go (type ConsistentHash)

Nodes are an arbitrary type, identified through a normalisation
function repr to a string (the reflection-based repr of the source is
kept abstract as a parameter; for string nodes Go repr is the identity
and every concrete instance below uses that).  The hash function is
the pluggable HashFunc (bytes to uint64); it is modelled as a function
from the hashed string to Nat, the concrete instances staying below
2^64.  The ring map becomes an association list from hash to the
occupant list, in insertion order, and the nodes set a string list. -/

structure ConsistentHash (A : Type) where
  hashFunc : String → Nat
  replicas : Nat
  keys : List Nat
  ring : List (Nat × List A)
  nodes : List String

/-- The minReplica constant of consistent1.go. -/
def minReplica : Nat := 100

/-- The TopWeight constant of consistent1.go. -/
def topWeight : Nat := 100

/-- NewCustomConsistentHash: clamp replicas up to minReplica.  (The
nil-function default falls back to the Hash function of an external
package, not part of this repository; every use below supplies the
function explicitly, and the universally quantified theorems cover the
default as one instance.) -/
def ConsistentHash.newCustom (A : Type) (replicas : Nat) (fn : String → Nat) :
    ConsistentHash A :=
  { hashFunc := fn,
    replicas := if replicas < minReplica then minReplica else replicas,
    keys := [], ring := [], nodes := [] }

/-- Appending a node at a ring position: extend the occupant list of
an existing entry in place, otherwise append a new entry, the model of
h.ring[hash] = append(h.ring[hash], node). -/
def ringAppend {A : Type} (r : List (Nat × List A)) (k : Nat) (v : A) :
    List (Nat × List A) :=
  if r.any (fun p => p.1 = k) then
    r.map (fun p => if p.1 = k then (p.1, p.2 ++ [v]) else p)
  else r ++ [(k, [v])]

/-- Ring lookup with the Go zero value (nil slice) for a missing key. -/
def ringLookup {A : Type} (r : List (Nat × List A)) (k : Nat) : List A :=
  ((r.find? (fun p => p.1 = k)).map Prod.snd).getD []

/-- removeRingNode: drop every occupant at the position whose repr
matches, deleting the entry when no occupant remains. -/
def removeRingNode {A : Type} (rp : A → String) (r : List (Nat × List A))
    (hash : Nat) (nodeRepr : String) : List (Nat × List A) :=
  match r.find? (fun p => p.1 = hash) with
  | none => r
  | some entry =>
    let newNodes := entry.2.filter (fun x => rp x ≠ nodeRepr)
    if newNodes.length > 0 then
      r.map (fun p => if p.1 = hash then (p.1, newNodes) else p)
    else
      r.filter (fun p => p.1 ≠ hash)

/-- containsNode: membership in the nodes set. -/
def ConsistentHash.containsNode {A : Type} (h : ConsistentHash A)
    (nodeRepr : String) : Bool :=
  h.nodes.contains nodeRepr

/-- Remove: a guarded no-op for unregistered identities; otherwise,
for every replica index, excise the first key greater than or equal to
the replica hash (sort.Search position) from the keys slice and remove
the occupants at that hash.  The nodes set is not touched (the
removeNode helper of the source is never called). -/
def ConsistentHash.remove {A : Type} (rp : A → String) (h : ConsistentHash A)
    (node : A) : ConsistentHash A :=
  let nodeRepr := rp node
  if h.containsNode nodeRepr then
    (List.range h.replicas).foldl
      (fun st i =>
        let hash := st.hashFunc (nodeRepr ++ toString i)
        let index := sortSearch st.keys.length
          (fun x => decide (hash ≤ st.keys.getD x 0))
        let keys1 := if index < st.keys.length then st.keys.eraseIdx index
          else st.keys
        { st with keys := keys1,
                  ring := removeRingNode rp st.ring hash nodeRepr }) h
  else h

/-- addNode: register the normalized identity. -/
def ConsistentHash.addNode {A : Type} (h : ConsistentHash A)
    (nodeRepr : String) : ConsistentHash A :=
  { h with nodes := if h.nodes.contains nodeRepr then h.nodes
                    else h.nodes ++ [nodeRepr] }

/-- AddWithReplicas: remove any existing registration, clamp replicas
down to the configured maximum, register the identity, place one
replica per index and re-sort the keys slice. -/
def ConsistentHash.addWithReplicas {A : Type} (rp : A → String)
    (h : ConsistentHash A) (node : A) (replicas : Nat) : ConsistentHash A :=
  let h1 := h.remove rp node
  let reps := if replicas > h1.replicas then h1.replicas else replicas
  let nodeRepr := rp node
  let h2 := h1.addNode nodeRepr
  let h3 := (List.range reps).foldl
    (fun st i =>
      let hash := st.hashFunc (nodeRepr ++ toString i)
      { st with keys := st.keys ++ [hash],
                ring := ringAppend st.ring hash node }) h2
  { h3 with keys := sortNat h3.keys }

/-- Add: AddWithReplicas at the configured replica count. -/
def ConsistentHash.add {A : Type} (rp : A → String) (h : ConsistentHash A)
    (node : A) : ConsistentHash A :=
  h.addWithReplicas rp node h.replicas

/-- AddWithWeight: replicas scaled by weight percent of the default. -/
def ConsistentHash.addWithWeight {A : Type} (rp : A → String)
    (h : ConsistentHash A) (node : A) (weight : Nat) : ConsistentHash A :=
  h.addWithReplicas rp node (h.replicas * weight / topWeight)

/-- Get: nil for an empty ring, otherwise binary-search the keys for
the first key greater than or equal to the hashed key, wrapping by
reduction modulo the keys length, and return the occupant there; a
multi-occupant position is resolved through a secondary hash of the
innerRepr of the key reduced modulo the occupant count. -/
def ConsistentHash.get {A : Type} (rp inner : A → String)
    (h : ConsistentHash A) (v : A) : Option A :=
  if h.ring.isEmpty then none
  else
    let hash := h.hashFunc (rp v)
    let index := sortSearch h.keys.length
      (fun x => decide (hash ≤ h.keys.getD x 0)) % h.keys.length
    let nodes := ringLookup h.ring (h.keys.getD index 0)
    match nodes with
    | [] => none
    | [x] => some x
    | _ =>
      let innerIndex := h.hashFunc (inner v)
      some (nodes.getD (innerIndex % nodes.length) v)

/-! ## Operation sequences, well-formedness, and concrete states -/

/-- The public mutation operations of consistent.go. -/
inductive GoOp where
  | addOp (elt : String)
  | removeOp (elt : String)
  | setOp (elts : List String)

def applyGoOp (c : Consistent) : GoOp → Consistent
  | GoOp.addOp e => c.add e
  | GoOp.removeOp e => c.remove e
  | GoOp.setOp es => c.set es

def applyGoOps (c : Consistent) (ops : List GoOp) : Consistent :=
  ops.foldl applyGoOp c

/-- The public mutation operations of consistent1.go. -/
inductive CHOp (A : Type) where
  | addOp (node : A)
  | addReplicasOp (node : A) (replicas : Nat)
  | addWeightOp (node : A) (weight : Nat)
  | removeOp (node : A)

def applyCHOp {A : Type} (rp : A → String) (h : ConsistentHash A) :
    CHOp A → ConsistentHash A
  | CHOp.addOp n => h.add rp n
  | CHOp.addReplicasOp n r => h.addWithReplicas rp n r
  | CHOp.addWeightOp n w => h.addWithWeight rp n w
  | CHOp.removeOp n => h.remove rp n

def applyCHOps {A : Type} (rp : A → String) (h : ConsistentHash A)
    (ops : List (CHOp A)) : ConsistentHash A :=
  ops.foldl (applyCHOp rp) h

/-- The number of distinct nodes actually occupying circle positions. -/
def Consistent.distinctCount (c : Consistent) : Nat :=
  (c.circle.map Prod.snd).toFinset.card

/-- Well-formedness of a Consistent state: the sorted hash slice is
the sorted key list of the circle, the circle map has no duplicate
keys, and count agrees with the number of distinct occupying nodes.
Freshly constructed rings maintained only through the idempotence and
no-op preconditions of the spec satisfy this (the count slips of add
and remove on repeated or absent members are the subject of the C3 and
C4 results below). -/
def Consistent.wellFormed (c : Consistent) : Prop :=
  c.sortedHashes = sortNat (c.circle.map Prod.fst) ∧
  (c.circle.map Prod.fst).Nodup ∧
  c.count = (c.distinctCount : Int) ∧
  (∀ x ∈ c.members, x ∈ c.circle.map Prod.snd) ∧
  (∀ x ∈ c.circle.map Prod.snd, x ∈ c.members)

instance (c : Consistent) : Decidable c.wellFormed := by
  unfold Consistent.wellFormed
  infer_instance

/-- The primary lookup result of Get (and of GetTwo and GetN): the
occupant of the searched position. -/
def Consistent.primary (c : Consistent) (name : String) : String :=
  lookupD c.circle (c.sortedHashes.getD (c.search (c.hashKey name)) 0)

/-- The second component GetTwo computes in its walk branch. -/
def Consistent.secondary (c : Consistent) (name : String) : String :=
  getTwoWalk (fun j => lookupD c.circle (c.sortedHashes.getD j 0))
    c.circle.length (c.search (c.hashKey name)) (c.primary name)

/-- The list GetN returns on a non-empty ring. -/
def Consistent.getNRes (c : Consistent) (name : String) (n : Int) : List String :=
  (c.getN name n).getD []

/-- The three-node ring of TestGetMultiple in consistent_test.go. -/
def ringABC : Consistent :=
  ((Consistent.new.add "abcdefg").add "hijklmn").add "opqrstu"

/-- The three-node ring of TestGetMultipleRemove in consistent_test.go
(same members, different insertion order). -/
def ringAOH : Consistent :=
  ((Consistent.new.add "abcdefg").add "opqrstu").add "hijklmn"

/-- A small hand-checkable well-formed two-node state. -/
def cW : Consistent :=
  { circle := [(3, "a"), (7, "b")], members := ["a", "b"],
    sortedHashes := [3, 7], numberOfReplicas := 20, count := 2,
    useFnv := false }

/-- A generic-variant ring with a constant hash function and a node
added with two replicas: both replicas collide, so the keys slice
holds the duplicated hash twice. -/
def chDupKeys : ConsistentHash String :=
  (ConsistentHash.newCustom String 100 (fun _ => 5)).addWithReplicas id "n" 2

/-- A generic-variant ring after AddWithWeight with weight 0: the node
is registered while no replica occupies the ring. -/
def chWeightZero : ConsistentHash String :=
  (ConsistentHash.newCustom String 100 (fun _ => 5)).addWithWeight id "n" 0

/-- The combined consistent.go invariant used below: distinct circle
keys and a strictly sorted hash slice. -/
def GoInv (c : Consistent) : Prop :=
  (c.circle.map Prod.fst).Nodup ∧
    List.Sorted (fun a b => a < b) c.sortedHashes

/-- The occupant-registration invariant of consistent1.go: every node
reference stored at some ring position has its identity in the nodes
set. -/
def CHInv {A : Type} (rp : A → String) (h : ConsistentHash A) : Prop :=
  ∀ p ∈ h.ring, ∀ x ∈ p.2, rp x ∈ h.nodes

/-! ## Bridging lemmas for the searches -/

theorem sortSearchAux_spec (f : Nat → Bool) (n : Nat)
    (mono : ∀ x y, x ≤ y → y < n → f x = true → f y = true) :
    ∀ fuel i j, i ≤ j → j ≤ n → j - i ≤ fuel →
      (∀ k, k < i → f k = false) → (∀ k, j ≤ k → k < n → f k = true) →
      (∀ k, k < sortSearchAux f fuel i j → f k = false) ∧
        (∀ k, sortSearchAux f fuel i j ≤ k → k < n → f k = true) ∧
        sortSearchAux f fuel i j ≤ n := by
  intro fuel
  induction fuel with
  | zero =>
    intro i j hij hjn hfuel hlo hhi
    have : i = j := by omega
    subst this
    simp only [sortSearchAux]
    exact ⟨hlo, hhi, by omega⟩
  | succ fuel ih =>
    intro i j hij hjn hfuel hlo hhi
    by_cases hlt : i < j
    · have hmid : i ≤ (i + j) / 2 ∧ (i + j) / 2 < j := by omega
      by_cases hf : f ((i + j) / 2) = true
      · have := ih i ((i + j) / 2) hmid.1 (by omega) (by omega) hlo
          (fun k hk1 hk2 => mono ((i + j) / 2) k (by omega) hk2 hf)
        simpa [sortSearchAux, hlt, hf] using this
      · have hfal : ∀ k, k < (i + j) / 2 + 1 → f k = false := by
          intro k hk
          by_cases hki : k < i
          · exact hlo k hki
          · rcases Bool.eq_false_or_eq_true (f k) with h | h
            · exfalso
              have := mono k ((i + j) / 2) (by omega) (by omega) h
              simp [this] at hf
            · exact h
        have := ih ((i + j) / 2 + 1) j (by omega) hjn (by omega) hfal hhi
        simpa [sortSearchAux, hlt, hf] using this
    · have : i = j := by omega
      subst this
      simpa [sortSearchAux, hlt] using ⟨hlo, hhi, by omega⟩

theorem sortSearch_spec (f : Nat → Bool) (n : Nat)
    (mono : ∀ x y, x ≤ y → y < n → f x = true → f y = true) :
    (∀ k, k < sortSearch n f → f k = false) ∧
      (∀ k, sortSearch n f ≤ k → k < n → f k = true) ∧
      sortSearch n f ≤ n := by
  have := sortSearchAux_spec f n mono n 0 n (by omega) (by omega) (by omega)
    (by omega) (fun k hk1 hk2 => by omega)
  exact this

/-- On a monotone predicate, sort.Search agrees with the least index
satisfying the predicate in the index range, i.e. with findIdx over
List.range. -/
theorem sortSearch_eq_findIdx (f : Nat → Bool) (n : Nat)
    (mono : ∀ x y, x ≤ y → y < n → f x = true → f y = true) :
    sortSearch n f = (List.range n).findIdx f := by
  obtain ⟨hlo, hhi, hle⟩ := sortSearch_spec f n mono
  by_cases h : sortSearch n f < n
  · have hfr : f (sortSearch n f) = true := hhi (sortSearch n f) (le_refl _) h
    have h1 : (List.range n).findIdx f ≤ sortSearch n f := by
      by_contra hc
      push_neg at hc
      have h2 := @List.not_of_lt_findIdx _ f (List.range n) (sortSearch n f) hc
      rw [List.getElem_range] at h2
      rw [hfr] at h2
      simp at h2
    have h2 : ¬ (List.range n).findIdx f < sortSearch n f := by
      intro hc
      have hlen : (List.range n).findIdx f < (List.range n).length := by
        simp only [List.length_range]
        omega
      have h3 := @List.findIdx_getElem _ f (List.range n) hlen
      rw [List.getElem_range] at h3
      have h4 := hlo _ hc
      rw [h4] at h3
      simp at h3
    omega
  · have hn : sortSearch n f = n := by omega
    have hall : ∀ x ∈ List.range n, f x = false := by
      intro x hx
      have hx2 : x < n := List.mem_range.mp hx
      exact hlo x (by omega)
    have h5 := List.findIdx_eq_length.mpr hall
    simp only [List.length_range] at h5
    omega


theorem getD_eq_get {A : Type} (l : List A) (d : A) (i : Nat) (h : i < l.length) :
    l.getD i d = l.get ⟨i, h⟩ := by
  simp [List.getD_eq_getElem?_getD, List.getElem?_eq_getElem h]

theorem findIdx_map_comp {A B : Type} (q : B → Bool) (f : A → B) :
    ∀ xs : List A, (xs.map f).findIdx q = xs.findIdx (fun x => q (f x)) := by
  intro xs
  induction xs with
  | nil => rfl
  | cons a t ih => simp [List.findIdx_cons, ih]

/-- findIdx over the index range with default-valued indexing agrees
with findIdx on the list itself. -/
theorem findIdx_range_getD {A : Type} (p : A → Bool) (d : A) :
    ∀ l : List A,
      (List.range l.length).findIdx (fun i => p (l.getD i d)) = l.findIdx p := by
  intro l
  induction l with
  | nil => rfl
  | cons a t ih =>
    have hr : List.range (a :: t).length = 0 :: (List.range t.length).map Nat.succ := by
      simpa using List.range_succ_eq_map t.length
    rw [hr]
    cases hpa : p a with
    | true => simp [List.findIdx_cons, hpa]
    | false =>
      simp only [List.findIdx_cons, List.getD_cons_zero, hpa, cond_false]
      rw [findIdx_map_comp]
      simp only [Nat.succ_eq_add_one, List.getD_cons_succ]
      rw [ih]

/-- The predicate read off a sorted hash slice is monotone in the
index, which is what lets sort.Search find the leftmost hit. -/
theorem mono_of_sorted_lt (l : List Nat) (key : Nat)
    (hs : List.Sorted (fun a b => a ≤ b) l) :
    ∀ x y, x ≤ y → y < l.length →
      (decide (key < l.getD x 0)) = true → (decide (key < l.getD y 0)) = true := by
  intro x y hxy hy hx
  have hxlen : x < l.length := by omega
  rw [getD_eq_get l 0 x hxlen] at hx
  rw [getD_eq_get l 0 y hy]
  simp only [decide_eq_true_eq] at hx ⊢
  rcases Nat.lt_or_ge x y with h | h
  · have := hs.rel_get_of_lt (a := ⟨x, hxlen⟩) (b := ⟨y, hy⟩) h
    omega
  · have : x = y := by omega
    subst this
    exact hx

theorem mono_of_sorted_le (l : List Nat) (key : Nat)
    (hs : List.Sorted (fun a b => a ≤ b) l) :
    ∀ x y, x ≤ y → y < l.length →
      (decide (key ≤ l.getD x 0)) = true → (decide (key ≤ l.getD y 0)) = true := by
  intro x y hxy hy hx
  have hxlen : x < l.length := by omega
  rw [getD_eq_get l 0 x hxlen] at hx
  rw [getD_eq_get l 0 y hy]
  simp only [decide_eq_true_eq] at hx ⊢
  rcases Nat.lt_or_ge x y with h | h
  · have := hs.rel_get_of_lt (a := ⟨x, hxlen⟩) (b := ⟨y, hy⟩) h
    omega
  · have : x = y := by omega
    subst this
    exact hx

/-- On a sorted hash slice, the search of consistent.go returns the
index of the first stored hash strictly greater than the key, and 0
when no stored hash is greater (the circular wrap). -/
theorem search_eq_findIdx (c : Consistent) (key : Nat)
    (hs : List.Sorted (fun a b => a ≤ b) c.sortedHashes) :
    c.search key =
      if c.sortedHashes.length ≤ c.sortedHashes.findIdx (fun p => decide (key < p))
      then 0 else c.sortedHashes.findIdx (fun p => decide (key < p)) := by
  unfold Consistent.search
  simp only [sortSearch_eq_findIdx _ _ (mono_of_sorted_lt c.sortedHashes key hs)]
  have hb := findIdx_range_getD (fun p => decide (key < p)) 0 c.sortedHashes
  simp only at hb
  rw [hb]

/-! ## Claim C10: the two branches of hashKeyCRC32 agree -/

/-- C10: for every byte sequence (hence for every key string), the
short-key branch of hashKeyCRC32, which copies the key into a 64-byte
scratch buffer and hashes the prefix of the key length, produces the
same CRC32-IEEE checksum as hashing the bytes directly, so hashKey is
a single well-defined function of the key. -/
theorem claim_C10_hash_branch :
    ∀ bytes : List Nat, hashKeyCRC32 bytes = crc32 bytes := by
  intro bytes
  unfold hashKeyCRC32
  by_cases h : bytes.length < 64
  · simp [h, List.take_left]
  · simp [h]

/-! ## Claim C2: the empty ring is the only error -/

/-- C2: a lookup on the consistent.go ring fails exactly when the
circle is empty, for Get, GetTwo and GetN alike (none models the
ErrEmptyCircle return, the only error value in the code), and the
consistent1.go Get fails (returns nil and false) on an empty ring. -/
theorem claim_C2_empty_ring :
    ∀ (c : Consistent) (name : String) (n : Int) (A : Type)
      (rp inner : A → String) (h : ConsistentHash A) (v : A),
      (c.get name = none ↔ c.circle = []) ∧
      (c.getTwo name = none ↔ c.circle = []) ∧
      (c.getN name n = none ↔ c.circle = []) ∧
      (h.ring = [] → h.get rp inner v = none) := by
  intro c name n A rp inner h v
  by_cases hc : c.circle = []
  · refine ⟨?_, ?_, ?_, ?_⟩
    · simp [Consistent.get, hc]
    · simp [Consistent.getTwo, hc]
    · simp [Consistent.getN, hc]
    · intro hr
      simp [ConsistentHash.get, hr]
  · have hne : ¬ c.circle.isEmpty = true := by
      simpa [List.isEmpty_iff] using hc
    refine ⟨?_, ?_, ?_, ?_⟩
    · simp only [Consistent.get, hne, if_false]
      simp [hc]
    · simp only [Consistent.getTwo, hne, if_false]
      constructor
      · intro habs
        by_cases h1 : c.count = 1 <;> simp [h1] at habs
      · intro habs
        exact absurd habs hc
    · simp only [Consistent.getN, hne, if_false]
      simp [hc]
    · intro hr
      simp [ConsistentHash.get, hr]

theorem claim_C2_empty_ring_witness :
    Consistent.new.get "key" = none ∧
      (ConsistentHash.newCustom String 100 (fun _ => 0)).get id id "x" = none := by
  constructor
  · exact (claim_C2_empty_ring Consistent.new "key" 1 String id id
      (ConsistentHash.newCustom String 100 (fun _ => 0)) "x").1.mpr rfl
  · exact (claim_C2_empty_ring Consistent.new "key" 1 String id id
      (ConsistentHash.newCustom String 100 (fun _ => 0)) "x").2.2.2 rfl

/-! ## Claim C3: double Add corrupts the node count (code bug) -/

set_option maxRecDepth 1000000 in
/-- C3 failing input: Add("a"); Add("a") from a fresh consistent.go
ring.  The circle, member set and sorted hashes all coincide with a
single Add("a"), as the claim demands, but count ends at 2 instead of
1: the add body increments count without any membership check (the
generic variant removes before re-adding and is genuinely idempotent;
here the spec states the evident intent, count tracking the distinct
registered nodes as GetTwo and GetN assume, and the unguarded
increment is the slip). -/
theorem claim_C3_double_add_failing_input :
    ((Consistent.new.add "a").add "a").circle = (Consistent.new.add "a").circle ∧
    ((Consistent.new.add "a").add "a").members = (Consistent.new.add "a").members ∧
    ((Consistent.new.add "a").add "a").sortedHashes
      = (Consistent.new.add "a").sortedHashes ∧
    ((Consistent.new.add "a").add "a").count = 2 ∧
    (Consistent.new.add "a").count = 1 := by
  decide

/-! ## Claim C4: Remove of a non-member decrements the count (code bug) -/

set_option maxRecDepth 1000000 in
/-- C4 failing input: Add("a"); Remove("b") on consistent.go.  The
circle, member set and sorted hashes are untouched and no error is
raised, as the claim demands, but count drops from 1 to 0: the remove
body decrements count without the membership guard that the generic
variant has, so further such calls drive count negative and GetN
misbehaves on its count clamp. -/
theorem claim_C4_remove_nonmember_failing_input :
    ((Consistent.new.add "a").remove "b").circle = (Consistent.new.add "a").circle ∧
    ((Consistent.new.add "a").remove "b").members = (Consistent.new.add "a").members ∧
    ((Consistent.new.add "a").remove "b").sortedHashes
      = (Consistent.new.add "a").sortedHashes ∧
    ((Consistent.new.add "a").remove "b").count = 0 ∧
    (Consistent.new.add "a").count = 1 := by
  decide

/-! ## Claim C1: Get selection rule -/

set_option maxRecDepth 1000000 in
/-- C1 counterexample: in consistent.go, a key whose hash exactly
equals a stored position does not select that position.  With the
single node of the repository tests and the key "0abcdefg" (the
replica-0 element key, so its hash is literally one of the stored
positions), search selects a position different from the equal one,
because the Go code searches for the first position strictly greater
than the hash. -/
theorem claim_C1_counterexample :
    (Consistent.new.add "abcdefg").hashKey "0abcdefg"
        ∈ (Consistent.new.add "abcdefg").sortedHashes ∧
    (Consistent.new.add "abcdefg").sortedHashes.getD
        ((Consistent.new.add "abcdefg").search
          ((Consistent.new.add "abcdefg").hashKey "0abcdefg")) 0
      ≠ (Consistent.new.add "abcdefg").hashKey "0abcdefg" := by
  decide

/-- C1 amended: on a sorted position slice, the consistent.go search
returns the index of the first position strictly greater than the
hash, wrapping to index 0 when no position is greater (so an exact hit
selects the next position), while the consistent1.go Get selects the
first position greater than or equal to the hash, wrapping by the
modulo reduction of its index (so an exact hit selects that very
position). -/
theorem claim_C1_search_selection (c : Consistent) (key : Nat) (ks : List Nat)
    (hash : Nat) (hs : List.Sorted (fun a b => a ≤ b) c.sortedHashes)
    (hk : List.Sorted (fun a b => a ≤ b) ks) :
    (c.search key =
      if c.sortedHashes.length ≤ c.sortedHashes.findIdx (fun p => decide (key < p))
      then 0 else c.sortedHashes.findIdx (fun p => decide (key < p))) ∧
    sortSearch ks.length (fun x => decide (hash ≤ ks.getD x 0)) % ks.length
      = ks.findIdx (fun p => decide (hash ≤ p)) % ks.length := by
  constructor
  · exact search_eq_findIdx c key hs
  · rw [sortSearch_eq_findIdx _ _ (mono_of_sorted_le ks hash hk)]
    have hb := findIdx_range_getD (fun p => decide (hash ≤ p)) 0 ks
    simp only at hb
    rw [hb]

theorem claim_C1_search_selection_witness :
    (cW.search 7 =
      if cW.sortedHashes.length ≤ cW.sortedHashes.findIdx (fun p => decide (7 < p))
      then 0 else cW.sortedHashes.findIdx (fun p => decide (7 < p))) ∧
    sortSearch ([3, 7] : List Nat).length
        (fun x => decide (7 ≤ ([3, 7] : List Nat).getD x 0))
        % ([3, 7] : List Nat).length
      = ([3, 7] : List Nat).findIdx (fun p => decide (7 ≤ p))
        % ([3, 7] : List Nat).length :=
  claim_C1_search_selection cW 7 [3, 7] 7 (by decide) (by decide)

/-! ## Claim C5: the position sequences stay sorted -/

theorem foldl_preserve {A B : Type} (P : A → Prop) (f : A → B → A)
    (hstep : ∀ st x, P st → P (f st x)) :
    ∀ (l : List B) (init : A), P init → P (l.foldl f init) := by
  intro l
  induction l with
  | nil => intro init h; exact h
  | cons a t ih => intro init h; exact ih (f init a) (hstep init a h)

theorem assocSet_map_fst_nodup (l : List (Nat × String)) (k : Nat) (v : String)
    (h : (l.map Prod.fst).Nodup) : ((assocSet l k v).map Prod.fst).Nodup := by
  unfold assocSet
  by_cases hc : l.any (fun p => decide (p.1 = k)) = true
  · rw [if_pos hc]
    rw [List.map_map]
    have heq : l.map (Prod.fst ∘ fun p => if p.1 = k then (k, v) else p)
        = l.map Prod.fst := by
      apply List.map_congr_left
      intro p hp
      by_cases hpk : p.1 = k
      · simp [hpk]
      · simp [hpk]
    rw [heq]
    exact h
  · rw [if_neg hc]
    rw [List.map_append]
    rw [List.nodup_append]
    refine ⟨h, by simp, ?_⟩
    intro a ha hb
    simp only [List.map_cons, List.map_nil, List.mem_cons, List.not_mem_nil,
      or_false] at hb
    subst hb
    simp only [List.any_eq_true, not_exists, not_and] at hc
    obtain ⟨p, hp, hpk⟩ := List.mem_map.mp ha
    have := hc p hp
    simp [hpk] at this

theorem assocErase_map_fst_nodup (l : List (Nat × String)) (k : Nat)
    (h : (l.map Prod.fst).Nodup) : ((assocErase l k).map Prod.fst).Nodup := by
  unfold assocErase
  exact ((List.filter_sublist l).map Prod.fst).nodup h

/-- Circle-key distinctness is preserved by add. -/
theorem add_circle_nodup (c : Consistent) (e : String)
    (h : (c.circle.map Prod.fst).Nodup) :
    ((c.add e).circle.map Prod.fst).Nodup := by
  simp only [Consistent.add, Consistent.updateSortedHashes]
  exact foldl_preserve (fun m => (m.map Prod.fst).Nodup) _
    (fun m i hm => assocSet_map_fst_nodup m _ _ hm) _ _ h

theorem remove_circle_nodup (c : Consistent) (e : String)
    (h : (c.circle.map Prod.fst).Nodup) :
    ((c.remove e).circle.map Prod.fst).Nodup := by
  simp only [Consistent.remove, Consistent.updateSortedHashes]
  exact foldl_preserve (fun m => (m.map Prod.fst).Nodup) _
    (fun m i hm => assocErase_map_fst_nodup m _ hm) _ _ h

theorem sortNat_sorted_le (l : List Nat) :
    List.Sorted (fun a b => a ≤ b) (sortNat l) :=
  List.sorted_insertionSort _ l

theorem sortNat_perm (l : List Nat) : (sortNat l).Perm l :=
  List.perm_insertionSort _ l

theorem sortNat_sorted_lt (l : List Nat) (h : l.Nodup) :
    List.Sorted (fun a b => a < b) (sortNat l) := by
  have hnd : (sortNat l).Nodup := (sortNat_perm l).nodup_iff.mpr h
  exact (sortNat_sorted_le l).lt_of_le hnd

theorem add_goInv (c : Consistent) (e : String) (h : GoInv c) :
    GoInv (c.add e) := by
  have hnd := add_circle_nodup c e h.1
  exact ⟨hnd, sortNat_sorted_lt _ hnd⟩

theorem remove_goInv (c : Consistent) (e : String) (h : GoInv c) :
    GoInv (c.remove e) := by
  have hnd := remove_circle_nodup c e h.1
  exact ⟨hnd, sortNat_sorted_lt _ hnd⟩

theorem set_goInv (c : Consistent) (es : List String) (h : GoInv c) :
    GoInv (c.set es) := by
  unfold Consistent.set
  refine foldl_preserve GoInv _ ?_ es _
    (foldl_preserve GoInv _ ?_ c.members c h)
  · intro st x hst
    dsimp only
    split
    · exact hst
    · exact add_goInv st x hst
  · intro st k hst
    dsimp only
    split
    · exact hst
    · exact remove_goInv st k hst

theorem applyGoOps_goInv (ops : List GoOp) :
    GoInv (applyGoOps Consistent.new ops) := by
  unfold applyGoOps
  refine foldl_preserve GoInv applyGoOp ?_ ops Consistent.new ?_
  · intro st op hst
    cases op with
    | addOp e => exact add_goInv st e hst
    | removeOp e => exact remove_goInv st e hst
    | setOp es => exact set_goInv st es hst
  · exact ⟨by simp [Consistent.new], by simp [Consistent.new, List.Sorted]⟩

theorem remove_keys_sorted {A : Type} (rp : A → String) (g : ConsistentHash A)
    (n : A) (hg : List.Sorted (fun a b => a ≤ b) g.keys) :
    List.Sorted (fun a b => a ≤ b) (g.remove rp n).keys := by
  unfold ConsistentHash.remove
  by_cases hcn : g.containsNode (rp n) = true
  · rw [if_pos hcn]
    refine foldl_preserve
      (fun st : ConsistentHash A => List.Sorted (fun a b => a ≤ b) st.keys) _ ?_ _ _ hg
    intro st i hst
    dsimp only
    split
    · exact List.Pairwise.sublist (List.eraseIdx_sublist st.keys _) hst
    · exact hst
  · rw [if_neg hcn]
    exact hg

theorem addWithReplicas_keys_sorted {A : Type} (rp : A → String)
    (g : ConsistentHash A) (n : A) (r : Nat) :
    List.Sorted (fun a b => a ≤ b) (g.addWithReplicas rp n r).keys := by
  simp only [ConsistentHash.addWithReplicas]
  exact sortNat_sorted_le _

/-- Keys of the generic variant stay sorted under every operation. -/
theorem chOp_keys_sorted {A : Type} (rp : A → String) (h : ConsistentHash A)
    (op : CHOp A) (hs : List.Sorted (fun a b => a ≤ b) h.keys) :
    List.Sorted (fun a b => a ≤ b) (applyCHOp rp h op).keys := by
  cases op with
  | addOp n => exact addWithReplicas_keys_sorted rp h n h.replicas
  | addReplicasOp n r => exact addWithReplicas_keys_sorted rp h n r
  | addWeightOp n w => exact addWithReplicas_keys_sorted rp h n _
  | removeOp n => exact remove_keys_sorted rp h n hs

set_option maxRecDepth 100000 in
/-- C5 counterexample: with a caller-supplied constant hash function,
AddWithReplicas with two replicas places both replicas at the same
hash, and the keys slice of consistent1.go keeps both copies: the
position sequence contains a duplicate hash value. -/
theorem claim_C5_counterexample :
    chDupKeys.keys = [5, 5] ∧ ¬ chDupKeys.keys.Nodup := by
  decide

/-- C5 amended: after every operation sequence from a freshly
constructed ring, the position sequence is sorted ascending in both
variants, and in the uint32 variant (whose positions are the keys of
the circle map, hence distinct) it is strictly sorted, i.e. also free
of duplicates; in the generic variant colliding replicas may
duplicate a hash value in the keys slice. -/
theorem claim_C5_positions_sorted (opsA : List GoOp) (A : Type)
    (rp : A → String) (fn : String → Nat) (reps : Nat) (opsB : List (CHOp A)) :
    List.Sorted (fun a b => a < b) (applyGoOps Consistent.new opsA).sortedHashes ∧
    List.Sorted (fun a b => a ≤ b)
      (applyCHOps rp (ConsistentHash.newCustom A reps fn) opsB).keys := by
  refine ⟨(applyGoOps_goInv opsA).2, ?_⟩
  unfold applyCHOps
  refine foldl_preserve
    (fun st : ConsistentHash A => List.Sorted (fun a b => a ≤ b) st.keys) _ ?_ opsB _ ?_
  · intro st op hst
    exact chOp_keys_sorted rp st op hst
  · simp [ConsistentHash.newCustom, List.Sorted]

/-! ## Claim C6: occupants versus the registered set -/

theorem ringAppend_occ {A : Type} (rp : A → String) (r : List (Nat × List A))
    (k : Nat) (v : A) (S : List String)
    (hr : ∀ p ∈ r, ∀ x ∈ p.2, rp x ∈ S) (hv : rp v ∈ S) :
    ∀ p ∈ ringAppend r k v, ∀ x ∈ p.2, rp x ∈ S := by
  unfold ringAppend
  by_cases hc : r.any (fun p => decide (p.1 = k)) = true
  · rw [if_pos hc]
    intro p hp x hx
    obtain ⟨q, hq, hpq⟩ := List.mem_map.mp hp
    by_cases hqk : q.1 = k
    · rw [if_pos hqk] at hpq
      subst hpq
      simp only [List.mem_append, List.mem_cons, List.not_mem_nil, or_false] at hx
      rcases hx with hx | hx
      · exact hr q hq x hx
      · subst hx
        exact hv
    · rw [if_neg hqk] at hpq
      subst hpq
      exact hr q hq x hx
  · rw [if_neg hc]
    intro p hp x hx
    rcases List.mem_append.mp hp with h | h
    · exact hr p h x hx
    · simp only [List.mem_cons, List.not_mem_nil, or_false] at h
      subst h
      simp only [List.mem_cons, List.not_mem_nil, or_false] at hx
      subst hx
      exact hv

theorem removeRingNode_occ {A : Type} (rp : A → String) (r : List (Nat × List A))
    (hash : Nat) (nodeRepr : String) (S : List String)
    (hr : ∀ p ∈ r, ∀ x ∈ p.2, rp x ∈ S) :
    ∀ p ∈ removeRingNode rp r hash nodeRepr, ∀ x ∈ p.2, rp x ∈ S := by
  unfold removeRingNode
  cases hfind : r.find? (fun p => decide (p.1 = hash)) with
  | none =>
    exact hr
  | some entry =>
    have hentry : entry ∈ r := List.mem_of_find?_eq_some hfind
    dsimp only
    split
    · intro p hp x hx
      obtain ⟨q, hq, hpq⟩ := List.mem_map.mp hp
      by_cases hqk : q.1 = hash
      · rw [if_pos hqk] at hpq
        subst hpq
        simp only at hx
        have hx2 := List.mem_of_mem_filter hx
        exact hr entry hentry x hx2
      · rw [if_neg hqk] at hpq
        subst hpq
        exact hr q hq x hx
    · intro p hp x hx
      exact hr p (List.mem_of_mem_filter hp) x hx

theorem remove_chInv {A : Type} (rp : A → String) (h : ConsistentHash A)
    (n : A) (hi : CHInv rp h) : CHInv rp (h.remove rp n) := by
  unfold ConsistentHash.remove
  by_cases hcn : h.containsNode (rp n) = true
  · rw [if_pos hcn]
    refine foldl_preserve (CHInv rp) _ ?_ _ _ hi
    intro st i hst
    intro p hp x hx
    exact removeRingNode_occ rp st.ring _ _ st.nodes hst p hp x hx
  · rw [if_neg hcn]
    exact hi

theorem addLoop_chInv {A : Type} (rp : A → String) (n : A)
    (g : ConsistentHash A) (reps : Nat) (hg : CHInv rp g)
    (hmem : rp n ∈ g.nodes) :
    CHInv rp ((List.range reps).foldl
      (fun st i =>
        let hash := st.hashFunc (rp n ++ toString i)
        { st with keys := st.keys ++ [hash],
                  ring := ringAppend st.ring hash n }) g) := by
  have hfold := foldl_preserve
    (fun st : ConsistentHash A => CHInv rp st ∧ st.nodes = g.nodes)
    (fun st i =>
      let hash := st.hashFunc (rp n ++ toString i)
      { st with keys := st.keys ++ [hash],
                ring := ringAppend st.ring hash n })
    (by
      intro st i hst
      refine ⟨?_, hst.2⟩
      intro p hp x hx
      refine ringAppend_occ rp st.ring _ n st.nodes hst.1 ?_ p hp x hx
      rw [hst.2]
      exact hmem)
    (List.range reps) g ⟨hg, rfl⟩
  exact hfold.1

theorem addWithReplicas_chInv {A : Type} (rp : A → String) (h : ConsistentHash A)
    (n : A) (r : Nat) (hi : CHInv rp h) :
    CHInv rp (h.addWithReplicas rp n r) := by
  have h1 : CHInv rp (h.remove rp n) := remove_chInv rp h n hi
  have h2 : CHInv rp ((h.remove rp n).addNode (rp n)) := by
    intro p hp x hx
    have := h1 p hp x hx
    unfold ConsistentHash.addNode
    dsimp only
    split
    · exact this
    · exact List.mem_append_left _ this
  have hmem : rp n ∈ ((h.remove rp n).addNode (rp n)).nodes := by
    unfold ConsistentHash.addNode
    dsimp only
    split
    · rename_i hcon
      simpa using hcon
    · exact List.mem_append_right _ (by simp)
  unfold ConsistentHash.addWithReplicas
  intro p hp x hx
  exact addLoop_chInv rp n ((h.remove rp n).addNode (rp n))
    (if r > (h.remove rp n).replicas then (h.remove rp n).replicas else r)
    h2 hmem p hp x hx

theorem chOp_chInv {A : Type} (rp : A → String) (h : ConsistentHash A)
    (op : CHOp A) (hi : CHInv rp h) : CHInv rp (applyCHOp rp h op) := by
  cases op with
  | addOp n => exact addWithReplicas_chInv rp h n h.replicas hi
  | addReplicasOp n r => exact addWithReplicas_chInv rp h n r hi
  | addWeightOp n w => exact addWithReplicas_chInv rp h n _ hi
  | removeOp n => exact remove_chInv rp h n hi

set_option maxRecDepth 100000 in
/-- C6 counterexample: AddWithWeight with weight 0 computes zero
replicas, registers the identity and places nothing, so the node is
in the registered set while no replica of it occupies the ring,
refuting the stated equivalence.  (Remove breaks the same direction:
it deletes occupants but never deregisters, since the removeNode
helper is dead code.) -/
theorem claim_C6_counterexample :
    chWeightZero.nodes = ["n"] ∧ chWeightZero.ring = [] := by
  decide

/-- C6 amended: one direction survives: after every operation sequence
from a freshly constructed generic-variant ring, every node reference
present in the occupants mapping has its identity in the registered
set.  The converse fails (weight-0 adds and removals leave identities
registered with no occupants). -/
theorem claim_C6_occupants_registered (A : Type) (rp : A → String)
    (fn : String → Nat) (reps : Nat) (ops : List (CHOp A)) :
    ∀ p ∈ (applyCHOps rp (ConsistentHash.newCustom A reps fn) ops).ring,
      ∀ x ∈ p.2,
        rp x ∈ (applyCHOps rp (ConsistentHash.newCustom A reps fn) ops).nodes := by
  unfold applyCHOps
  refine foldl_preserve (CHInv rp) _ ?_ ops _ ?_
  · intro st op hst
    exact chOp_chInv rp st op hst
  · intro p hp x hx
    simp [ConsistentHash.newCustom] at hp

theorem claim_C6_occupants_registered_witness :
    ("n" : String) ∈ (applyCHOps id (ConsistentHash.newCustom String 100
      (fun _ => 5)) [CHOp.addReplicasOp "n" 2]).nodes :=
  claim_C6_occupants_registered String id (fun _ => 5) 100
    [CHOp.addReplicasOp "n" 2] (5, ["n", "n"]) (by decide) "n" (by decide)

/-! ## Claim C7: GetTwo -/

theorem sortSearchAux_le (f : Nat → Bool) :
    ∀ fuel i j, i ≤ j → sortSearchAux f fuel i j ≤ j := by
  intro fuel
  induction fuel with
  | zero => intro i j hij; simpa [sortSearchAux] using hij
  | succ fuel ih =>
    intro i j hij
    by_cases hlt : i < j
    · simp only [sortSearchAux, hlt, if_true]
      by_cases hf : f ((i + j) / 2) = true
      · simp only [hf, if_true]
        exact le_trans (ih i ((i + j) / 2) (by omega)) (by omega)
      · simp only [hf, if_false]
        exact ih ((i + j) / 2 + 1) j (by omega)
    · simpa [sortSearchAux, hlt] using hij

/-- The searched index is always inside the slice when the slice is
non-empty (the wrap branch maps an out-of-range result to 0). -/
theorem search_lt_length (c : Consistent) (key : Nat)
    (h : 0 < c.sortedHashes.length) : c.search key < c.sortedHashes.length := by
  unfold Consistent.search
  dsimp only
  split
  · exact h
  · rename_i hlt
    omega

theorem range_map_getD {B C : Type} (f : B → C) (d : B) :
    ∀ l : List B,
      (List.range l.length).map (fun i => f (l.getD i d)) = l.map f := by
  intro l
  induction l with
  | nil => rfl
  | cons a t ih =>
    have hr : List.range (a :: t).length = 0 :: (List.range t.length).map Nat.succ := by
      simpa using List.range_succ_eq_map t.length
    rw [hr]
    simp only [List.map_cons, List.getD_cons_zero, List.map_map,
      Function.comp_def, Nat.succ_eq_add_one, List.getD_cons_succ]
    rw [ih]

/-- Looking up every key of a duplicate-free association list returns
exactly the value list. -/
theorem map_lookup_keys :
    ∀ l : List (Nat × String), (l.map Prod.fst).Nodup →
      (l.map Prod.fst).map (lookupD l) = l.map Prod.snd := by
  intro l
  induction l with
  | nil => intro _; rfl
  | cons p t ih =>
    intro hnd
    simp only [List.map_cons]
    have hhead : lookupD (p :: t) p.1 = p.2 := by
      simp [lookupD, List.find?_cons]
    rw [hhead]
    congr 1
    have hnotin : p.1 ∉ t.map Prod.fst := by
      simp only [List.map_cons, List.nodup_cons] at hnd
      exact hnd.1
    have hcongr : (t.map Prod.fst).map (lookupD (p :: t))
        = (t.map Prod.fst).map (lookupD t) := by
      apply List.map_congr_left
      intro k hk
      have hne : ¬ p.1 = k := fun habs => hnotin (habs ▸ hk)
      simp [lookupD, List.find?_cons, hne]
    rw [hcongr]
    exact ih (by
      simp only [List.map_cons, List.nodup_cons] at hnd
      exact hnd.2)

/-- Under well-formedness, reading the occupant of every index of the
sorted hash slice is a permutation of the circle values. -/
theorem vals_perm_values (c : Consistent)
    (h1 : c.sortedHashes = sortNat (c.circle.map Prod.fst))
    (h2 : (c.circle.map Prod.fst).Nodup) :
    ((List.range c.sortedHashes.length).map
        (fun j => lookupD c.circle (c.sortedHashes.getD j 0))).Perm
      (c.circle.map Prod.snd) := by
  rw [range_map_getD]
  have hperm : c.sortedHashes.Perm (c.circle.map Prod.fst) := by
    rw [h1]
    exact sortNat_perm _
  have := hperm.map (lookupD c.circle)
  rw [map_lookup_keys c.circle h2] at this
  exact this

theorem sortedHashes_length (c : Consistent)
    (h1 : c.sortedHashes = sortNat (c.circle.map Prod.fst)) :
    c.sortedHashes.length = c.circle.length := by
  rw [h1]
  have := (sortNat_perm (c.circle.map Prod.fst)).length_eq
  simpa using this

/-- Every index other than start is visited by the circular walk. -/
theorem mem_walkIdxs (len start j : Nat) (hs : start < len) (hj : j < len)
    (hne : j ≠ start) : j ∈ walkIdxs len start := by
  unfold walkIdxs
  by_cases hjm : start + 1 ≤ j
  · refine List.mem_map.mpr ⟨j - (start + 1), ?_, ?_⟩
    · refine List.mem_range.mpr ?_
      omega
    · have he : start + 1 + (j - (start + 1)) = j := by omega
      rw [he]
      exact Nat.mod_eq_of_lt hj
  · refine List.mem_map.mpr ⟨j + len - (start + 1), ?_, ?_⟩
    · refine List.mem_range.mpr ?_
      omega
    · have he : start + 1 + (j + len - (start + 1)) = j + len := by omega
      rw [he]
      rw [Nat.add_mod_right]
      exact Nat.mod_eq_of_lt hj

/-- If any index carries an occupant different from a, the GetTwo walk
returns an occupant different from a. -/
theorem getTwoWalk_ne (vals : Nat → String) (len start : Nat) (a : String)
    (hs : start < len) (hstart : vals start = a)
    (hex : ∃ j, j < len ∧ vals j ≠ a) :
    getTwoWalk vals len start a ≠ a := by
  obtain ⟨j, hj, hja⟩ := hex
  have hjs : j ≠ start := fun habs => hja (habs ▸ hstart)
  have hmem : j ∈ walkIdxs len start := mem_walkIdxs len start j hs hj hjs
  have hsome : ((walkIdxs len start).find? (fun k => vals k ≠ a)).isSome := by
    rw [List.find?_isSome]
    exact ⟨j, hmem, by simpa using hja⟩
  unfold getTwoWalk
  cases hfind : (walkIdxs len start).find? (fun k => vals k ≠ a) with
  | none => rw [hfind] at hsome; simp at hsome
  | some k =>
    have := List.find?_some hfind
    simpa using this

/-- C7: on a well-formed non-empty ring, GetTwo returns the same
primary as Get; with exactly one distinct registered node it returns
the primary alone (empty second component), and with at least two
distinct registered nodes the two returned nodes differ. -/
theorem claim_C7_getTwo (c : Consistent) (name : String)
    (hwf : c.wellFormed) (hne : c.circle ≠ []) :
    c.get name = some (c.primary name) ∧
    (c.members.toFinset.card = 1 → c.getTwo name = some (c.primary name, "")) ∧
    (2 ≤ c.members.toFinset.card →
      c.getTwo name = some (c.primary name, c.secondary name) ∧
        c.secondary name ≠ c.primary name) := by
  obtain ⟨h1, h2, h3, h4, h5⟩ := hwf
  have hEmpty : c.circle.isEmpty = false := by
    cases hcc : c.circle with
    | nil => exact absurd hcc hne
    | cons p t => rfl
  have hsetEq : c.members.toFinset = (c.circle.map Prod.snd).toFinset :=
    List.toFinset.ext fun x => ⟨h4 x, h5 x⟩
  have hcard : c.members.toFinset.card = c.distinctCount := by
    unfold Consistent.distinctCount
    rw [hsetEq]
  have hlen : c.sortedHashes.length = c.circle.length := sortedHashes_length c h1
  have hlenpos : 0 < c.sortedHashes.length := by
    rw [hlen]
    cases hcc : c.circle with
    | nil => exact absurd hcc hne
    | cons p t => simp
  refine ⟨?_, ?_, ?_⟩
  · simp only [Consistent.get, hEmpty, Bool.false_eq_true, if_false]
    rfl
  · intro hc1
    have hcount : c.count = 1 := by
      rw [h3, ← hcard, hc1]
      rfl
    simp only [Consistent.getTwo, hEmpty, Bool.false_eq_true, if_false, hcount,
      if_true]
    rfl
  · intro hc2
    have hd2 : 2 ≤ c.distinctCount := hcard ▸ hc2
    have hcount1 : ¬ c.count = 1 := by
      rw [h3]
      omega
    constructor
    · simp only [Consistent.getTwo, hEmpty, Bool.false_eq_true, if_false, hcount1,
        if_false]
      rfl
    · have hstart : c.search (c.hashKey name) < c.circle.length := by
        rw [← hlen]
        exact search_lt_length c _ hlenpos
      have hex : ∃ j, j < c.circle.length ∧
          lookupD c.circle (c.sortedHashes.getD j 0) ≠ c.primary name := by
        by_contra hno
        push_neg at hno
        have hall : ∀ x ∈ (List.range c.sortedHashes.length).map
            (fun j => lookupD c.circle (c.sortedHashes.getD j 0)),
            x = c.primary name := by
          intro x hx
          obtain ⟨j, hj, hxv⟩ := List.mem_map.mp hx
          have hjlen : j < c.circle.length := by
            rw [← hlen]
            exact List.mem_range.mp hj
          rw [← hxv]
          exact hno j hjlen
        have hsub : (c.circle.map Prod.snd).toFinset ⊆ {c.primary name} := by
          intro x hx
          have hx2 : x ∈ (c.circle.map Prod.snd) := List.mem_toFinset.mp hx
          have hx3 : x ∈ (List.range c.sortedHashes.length).map
              (fun j => lookupD c.circle (c.sortedHashes.getD j 0)) :=
            ((vals_perm_values c h1 h2).mem_iff).mpr hx2
          have := hall x hx3
          simp [this]
        have hle1 : (c.circle.map Prod.snd).toFinset.card ≤ 1 := by
          have := Finset.card_le_card hsub
          simpa using this
        unfold Consistent.distinctCount at hd2
        omega
      exact getTwoWalk_ne _ c.circle.length _ _ hstart rfl hex

set_option maxRecDepth 1000000 in
theorem claim_C7_getTwo_witness :
    ringABC.get "ggg" = some (ringABC.primary "ggg") ∧
    (ringABC.members.toFinset.card = 1 →
      ringABC.getTwo "ggg" = some (ringABC.primary "ggg", "")) ∧
    (2 ≤ ringABC.members.toFinset.card →
      ringABC.getTwo "ggg" = some (ringABC.primary "ggg", ringABC.secondary "ggg") ∧
        ringABC.secondary "ggg" ≠ ringABC.primary "ggg") :=
  claim_C7_getTwo ringABC "ggg" (by decide) (by decide)

/-! ## Claim C8: GetN -/

/-- Specification of the GetN collection loop: starting from a
duplicate-free partial result that either still has room or can only
ever revisit already-collected occupants, the walk extends the result
in place, keeps it duplicate free, and stops at exactly the target or
after having collected every distinct occupant in sight. -/
theorem getNWalk_spec (vals : Nat → String) (n : Nat) :
    ∀ (idxs : List Nat) (res : List String), res.Nodup → res.length ≤ n →
      (res.length < n ∨ ∀ j ∈ idxs, vals j ∈ res) →
      (getNWalk vals (n : Int) idxs res).Nodup ∧
      (∃ ext, getNWalk vals (n : Int) idxs res = res ++ ext) ∧
      (getNWalk vals (n : Int) idxs res).length
        = min n ((res ++ idxs.map vals).toFinset.card) := by
  intro idxs
  induction idxs with
  | nil =>
    intro res hnd hle _
    refine ⟨hnd, ⟨[], by simp [getNWalk]⟩, ?_⟩
    simp only [getNWalk, List.map_nil, List.append_nil]
    rw [List.toFinset_card_of_nodup hnd]
    omega
  | cons j rest ih =>
    intro res hnd hle hdisj
    by_cases hv : res.contains (vals j) = true
    · have hvmem : vals j ∈ res := by simpa using hv
      have hsetdrop : (res ++ (j :: rest).map vals).toFinset
          = (res ++ rest.map vals).toFinset := by
        simp only [List.map_cons, List.toFinset_append, List.toFinset_cons]
        rw [Finset.union_insert]
        rw [Finset.insert_eq_self.mpr]
        exact Finset.mem_union_left _ (List.mem_toFinset.mpr hvmem)
      by_cases hbreak : ((res.length : Int) = (n : Int))
      · have hbn : res.length = n := by exact_mod_cast hbreak
        have hres : getNWalk vals (n : Int) (j :: rest) res = res := by
          simp only [getNWalk, hv, if_true, hbreak]
        rw [hres]
        refine ⟨hnd, ⟨[], by simp⟩, ?_⟩
        have hsub : res.toFinset ⊆ (res ++ (j :: rest).map vals).toFinset := by
          intro x hx
          rw [List.mem_toFinset] at hx
          rw [List.mem_toFinset]
          exact List.mem_append_left _ hx
        have hgeq := Finset.card_le_card hsub
        rw [List.toFinset_card_of_nodup hnd] at hgeq
        omega
      · have hres : getNWalk vals (n : Int) (j :: rest) res
            = getNWalk vals (n : Int) rest res := by
          simp only [getNWalk, hv, if_true, hbreak, if_false]
        have hlt : res.length < n := by
          have hne2 : ¬ res.length = n := fun habs => hbreak (by exact_mod_cast habs)
          omega
        have hih := ih res hnd hle (Or.inl hlt)
        rw [hres, hsetdrop]
        exact hih
    · have hvnot : vals j ∉ res := by
        intro habs
        exact hv (by simpa using habs)
      have hlt : res.length < n := by
        rcases hdisj with h | h
        · exact h
        · exact absurd (h j (by simp)) hvnot
      have hnd1 : (res ++ [vals j]).Nodup := by
        rw [List.nodup_append]
        refine ⟨hnd, by simp, ?_⟩
        intro a ha hb
        simp only [List.mem_cons, List.not_mem_nil, or_false] at hb
        subst hb
        exact hvnot ha
      have hlist : res ++ [vals j] ++ rest.map vals
          = res ++ (j :: rest).map vals := by
        rw [List.append_assoc]
        rfl
      by_cases hbreak : (((res ++ [vals j]).length : Int) = (n : Int))
      · have hbn : (res ++ [vals j]).length = n := by exact_mod_cast hbreak
        have hres : getNWalk vals (n : Int) (j :: rest) res = res ++ [vals j] := by
          simp only [getNWalk, hv, Bool.false_eq_true, if_false, hbreak, if_true]
        rw [hres]
        refine ⟨hnd1, ⟨[vals j], rfl⟩, ?_⟩
        have hsub : (res ++ [vals j]).toFinset
            ⊆ (res ++ (j :: rest).map vals).toFinset := by
          intro x hx
          rw [List.mem_toFinset] at hx
          rw [List.mem_toFinset]
          rw [← hlist]
          exact List.mem_append_left _ hx
        have hgeq := Finset.card_le_card hsub
        rw [List.toFinset_card_of_nodup hnd1] at hgeq
        omega
      · have hres : getNWalk vals (n : Int) (j :: rest) res
            = getNWalk vals (n : Int) rest (res ++ [vals j]) := by
          simp only [getNWalk, hv, Bool.false_eq_true, if_false, hbreak]
        rw [hres]
        have hle1 : (res ++ [vals j]).length ≤ n := by
          simp only [List.length_append, List.length_cons, List.length_nil]
          omega
        have hlt1 : (res ++ [vals j]).length < n := by
          have hne2 : ¬ (res ++ [vals j]).length = n :=
            fun habs => hbreak (by exact_mod_cast habs)
          omega
        obtain ⟨ha, ⟨ext, hb⟩, hc⟩ := ih (res ++ [vals j]) hnd1 hle1 (Or.inl hlt1)
        refine ⟨ha, ⟨[vals j] ++ ext, by rw [hb, List.append_assoc]⟩, ?_⟩
        rw [hc, hlist]

theorem walkIdxs_lt (len start : Nat) (h : 0 < len) :
    ∀ x ∈ walkIdxs len start, x < len := by
  intro x hx
  obtain ⟨k, hk, hxe⟩ := List.mem_map.mp hx
  rw [← hxe]
  exact Nat.mod_lt _ h

/-- The occupants reachable from GetN (the primary plus everything on
the circular walk) are exactly the circle values, as a set. -/
theorem getN_set_eq (c : Consistent) (name : String)
    (h1 : c.sortedHashes = sortNat (c.circle.map Prod.fst))
    (h2 : (c.circle.map Prod.fst).Nodup)
    (hlenpos : 0 < c.sortedHashes.length) :
    ((c.primary name ::
        (walkIdxs c.sortedHashes.length (c.search (c.hashKey name))).map
          (fun j => lookupD c.circle (c.sortedHashes.getD j 0))).toFinset
      = (c.circle.map Prod.snd).toFinset) := by
  have hstart : c.search (c.hashKey name) < c.sortedHashes.length :=
    search_lt_length c _ hlenpos
  have hmemvals : ∀ j, j < c.sortedHashes.length →
      lookupD c.circle (c.sortedHashes.getD j 0) ∈ c.circle.map Prod.snd := by
    intro j hj
    refine ((vals_perm_values c h1 h2).mem_iff).mp ?_
    exact List.mem_map.mpr ⟨j, List.mem_range.mpr hj, rfl⟩
  apply List.toFinset.ext
  intro x
  simp only [List.mem_toFinset, List.mem_cons]
  constructor
  · intro hx
    rcases hx with hx | hx
    · rw [hx]
      exact hmemvals _ hstart
    · obtain ⟨j, hj, hxe⟩ := List.mem_map.mp hx
      rw [← hxe]
      exact hmemvals j (walkIdxs_lt _ _ hlenpos j hj)
  · intro hx
    have hx2 : x ∈ (List.range c.sortedHashes.length).map
        (fun j => lookupD c.circle (c.sortedHashes.getD j 0)) :=
      ((vals_perm_values c h1 h2).mem_iff).mpr hx
    obtain ⟨j, hj, hxe⟩ := List.mem_map.mp hx2
    have hjlen : j < c.sortedHashes.length := List.mem_range.mp hj
    by_cases hjs : j = c.search (c.hashKey name)
    · left
      rw [← hxe, hjs]
      rfl
    · right
      refine List.mem_map.mpr ⟨j, ?_, hxe⟩
      exact mem_walkIdxs _ _ j hstart hjlen hjs

/-- C8 amended: on a well-formed non-empty ring and for every n of at
least 2, GetN returns exactly min(n, distinct node count) pairwise
distinct nodes, the first of which is the node Get returns.  (For
n = 1 the break test can be skipped and the result overshoots the
requested count, see the counterexample; for n of 0 or below the
source can panic on a negative make capacity or fail to terminate,
and nothing is claimed there.) -/
theorem claim_C8_getN (c : Consistent) (name : String) (n : Nat)
    (hwf : c.wellFormed) (hne : c.circle ≠ []) (hn2 : 2 ≤ n) :
    c.getN name (n : Int) = some (c.getNRes name (n : Int)) ∧
    (c.getNRes name (n : Int)).length = min n c.distinctCount ∧
    (c.getNRes name (n : Int)).Nodup ∧
    (c.getNRes name (n : Int)).head? = some (c.primary name) ∧
    c.get name = some (c.primary name) := by
  obtain ⟨h1, h2, h3, h4, h5⟩ := hwf
  have hEmpty : c.circle.isEmpty = false := by
    cases hcc : c.circle with
    | nil => exact absurd hcc hne
    | cons p t => rfl
  have hlen : c.sortedHashes.length = c.circle.length := sortedHashes_length c h1
  have hlenpos : 0 < c.sortedHashes.length := by
    rw [hlen]
    cases hcc : c.circle with
    | nil => exact absurd hcc hne
    | cons p t => simp
  have hstart : c.search (c.hashKey name) < c.sortedHashes.length :=
    search_lt_length c _ hlenpos
  have hd1 : 1 ≤ c.distinctCount := by
    unfold Consistent.distinctCount
    refine Finset.card_pos.mpr ?_
    cases hcc : c.circle with
    | nil => exact absurd hcc hne
    | cons p t => exact ⟨p.2, by simp [hcc]⟩
  have hclamp : (if c.count < (n : Int) then c.count else (n : Int))
      = ((min n c.distinctCount : Nat) : Int) := by
    rw [h3]
    split
    · rename_i hsp
      have : c.distinctCount < n := by exact_mod_cast hsp
      have : min n c.distinctCount = c.distinctCount := by omega
      rw [this]
    · rename_i hsp
      have : ¬ c.distinctCount < n := fun habs => hsp (by exact_mod_cast habs)
      have : min n c.distinctCount = n := by omega
      rw [this]
  have hgetN : c.getN name (n : Int)
      = some (getNWalk (fun j => lookupD c.circle (c.sortedHashes.getD j 0))
          ((min n c.distinctCount : Nat) : Int)
          (walkIdxs c.sortedHashes.length (c.search (c.hashKey name)))
          [c.primary name]) := by
    simp only [Consistent.getN, hEmpty, Bool.false_eq_true, if_false]
    rw [hclamp]
    rfl
  have hspec := getNWalk_spec
    (fun j => lookupD c.circle (c.sortedHashes.getD j 0))
    (min n c.distinctCount)
    (walkIdxs c.sortedHashes.length (c.search (c.hashKey name)))
    [c.primary name] (by simp) (by
      simp only [List.length_cons, List.length_nil]
      omega)
    (by
      by_cases hnn1 : 1 < min n c.distinctCount
      · exact Or.inl (by simpa using hnn1)
      · right
        have hDone : c.distinctCount = 1 := by omega
        have hcard1 : (c.circle.map Prod.snd).toFinset.card = 1 := hDone
        obtain ⟨a, hae⟩ := Finset.card_eq_one.mp hcard1
        have hprim : c.primary name ∈ (c.circle.map Prod.snd).toFinset := by
          rw [List.mem_toFinset]
          refine ((vals_perm_values c h1 h2).mem_iff).mp ?_
          exact List.mem_map.mpr ⟨_, List.mem_range.mpr hstart, rfl⟩
        intro j hj
        have hjlen : j < c.sortedHashes.length := walkIdxs_lt _ _ hlenpos j hj
        have hvj : lookupD c.circle (c.sortedHashes.getD j 0)
            ∈ (c.circle.map Prod.snd).toFinset := by
          rw [List.mem_toFinset]
          refine ((vals_perm_values c h1 h2).mem_iff).mp ?_
          exact List.mem_map.mpr ⟨j, List.mem_range.mpr hjlen, rfl⟩
        rw [hae] at hprim hvj
        simp only [Finset.mem_singleton] at hprim hvj
        simp only [List.getD_eq_getElem?_getD] at hvj
        simp [hvj, hprim])
  obtain ⟨hndR, ⟨ext, hext⟩, hlenR⟩ := hspec
  have hres : c.getNRes name (n : Int)
      = getNWalk (fun j => lookupD c.circle (c.sortedHashes.getD j 0))
          ((min n c.distinctCount : Nat) : Int)
          (walkIdxs c.sortedHashes.length (c.search (c.hashKey name)))
          [c.primary name] := by
    unfold Consistent.getNRes
    rw [hgetN]
    rfl
  refine ⟨by rw [hgetN, hres], ?_, by rw [hres]; exact hndR, ?_, ?_⟩
  · rw [hres, hlenR]
    have hcardeq : (([c.primary name] ++
        (walkIdxs c.sortedHashes.length (c.search (c.hashKey name))).map
          (fun j => lookupD c.circle (c.sortedHashes.getD j 0))).toFinset).card
        = c.distinctCount := by
      unfold Consistent.distinctCount
      rw [List.singleton_append]
      rw [getN_set_eq c name h1 h2 hlenpos]
    rw [hcardeq]
    omega
  · rw [hres, hext]
    simp
  · simp only [Consistent.get, hEmpty, Bool.false_eq_true, if_false]
    rfl

set_option maxRecDepth 1000000 in
/-- C8 counterexample: on the three-node test ring of the repository,
GetN("ggg", 1) returns all three distinct nodes instead of
min(1, 3) = 1.  The primary already fills the result to the requested
length before the loop starts, and the in-loop break only tests
equality after a new node has been appended, so the length jumps from
1 to 2 without ever matching 1; the loop then runs a full cycle and
exits at the start index, which is 17 here, so the Go loop terminates
and the model is exact on this input. -/
theorem claim_C8_counterexample :
    ringABC.getN "ggg" 1 = some ["abcdefg", "hijklmn", "opqrstu"] ∧
    ringABC.distinctCount = 3 := by
  decide

set_option maxRecDepth 1000000 in
theorem claim_C8_getN_witness :
    ringABC.getN "ggg" (2 : Nat) = some (ringABC.getNRes "ggg" (2 : Nat)) ∧
    (ringABC.getNRes "ggg" (2 : Nat)).length = min 2 ringABC.distinctCount ∧
    (ringABC.getNRes "ggg" (2 : Nat)).Nodup ∧
    (ringABC.getNRes "ggg" (2 : Nat)).head? = some (ringABC.primary "ggg") ∧
    ringABC.get "ggg" = some (ringABC.primary "ggg") :=
  claim_C8_getN ringABC "ggg" 2 (by decide) (by decide) (by decide)

/-! ## Claim C9: minimal remapping under Remove -/

theorem foldl_assocErase :
    ∀ (hs : List Nat) (m : List (Nat × String)),
      hs.foldl assocErase m = m.filter (fun p => decide (p.1 ∉ hs)) := by
  intro hs
  induction hs with
  | nil =>
    intro m
    simp
  | cons h t ih =>
    intro m
    simp only [List.foldl_cons]
    rw [ih (assocErase m h)]
    unfold assocErase
    rw [List.filter_filter]
    apply List.filter_congr
    intro p _
    by_cases h1 : p.1 = h <;> by_cases h2 : p.1 ∈ t <;> simp [h1, h2]

theorem map_fst_filter (q : Nat → Bool) :
    ∀ l : List (Nat × String),
      (l.filter (fun p => q p.1)).map Prod.fst = (l.map Prod.fst).filter q := by
  intro l
  induction l with
  | nil => rfl
  | cons a t ih =>
    simp only [List.filter_cons, List.map_cons]
    by_cases hq : q a.1 = true <;> simp [hq, ih]

theorem find?_filter_eq (p q : Nat × String → Bool)
    (l : List (Nat × String)) (h : ∀ x ∈ l, p x = true → q x = true) :
    (l.filter q).find? p = l.find? p := by
  induction l with
  | nil => rfl
  | cons a t ih =>
    have hrec := ih (fun x hx => h x (List.mem_cons_of_mem a hx))
    by_cases hpa : p a = true
    · have hqa : q a = true := h a (by simp) hpa
      rw [List.filter_cons]
      simp [hqa, List.find?_cons, hpa]
    · rw [List.filter_cons]
      by_cases hqa : q a = true
      · simp only [hqa, if_true]
        rw [List.find?_cons, List.find?_cons]
        simp [hpa, hrec]
      · simp only [hqa, Bool.false_eq_true, if_false]
        rw [hrec, List.find?_cons]
        simp [hpa]

theorem sorted_getElem_le (l : List Nat)
    (hs : List.Sorted (fun a b => a ≤ b) l) (i j : Nat) (hij : i ≤ j)
    (hj : j < l.length) : l.get ⟨i, by omega⟩ ≤ l.get ⟨j, hj⟩ := by
  rcases Nat.lt_or_ge i j with h | h
  · have h2 := hs.rel_get_of_lt (a := ⟨i, by omega⟩) (b := ⟨j, hj⟩)
      (by simpa using h)
    exact h2
  · have hij2 : i = j := by omega
    subst hij2
    exact le_refl _

/-- Characterization of the selected position of Get on a sorted
non-empty hash slice: it is a stored position, it is a lower bound of
every stored position strictly greater than the key, it is itself
strictly greater than the key whenever some stored position is, and
otherwise it is the minimum stored position (the circular wrap). -/
theorem search_sel_spec (c : Consistent) (key : Nat)
    (hs : List.Sorted (fun a b => a ≤ b) c.sortedHashes)
    (hne : c.sortedHashes ≠ []) :
    c.sortedHashes.getD (c.search key) 0 ∈ c.sortedHashes ∧
    (∀ h ∈ c.sortedHashes, key < h →
      c.sortedHashes.getD (c.search key) 0 ≤ h) ∧
    ((∃ h ∈ c.sortedHashes, key < h) →
      key < c.sortedHashes.getD (c.search key) 0) ∧
    ((¬ ∃ h ∈ c.sortedHashes, key < h) →
      ∀ h ∈ c.sortedHashes, c.sortedHashes.getD (c.search key) 0 ≤ h) := by
  have hlenpos : 0 < c.sortedHashes.length := by
    cases hcc : c.sortedHashes with
    | nil => exact absurd hcc hne
    | cons p t => simp
  rw [search_eq_findIdx c key hs]
  by_cases hfi : c.sortedHashes.findIdx (fun p => decide (key < p))
      < c.sortedHashes.length
  · have hnle : ¬ (c.sortedHashes.length ≤
        c.sortedHashes.findIdx (fun p => decide (key < p))) := by omega
    rw [if_neg hnle]
    have hsel : c.sortedHashes.getD
        (c.sortedHashes.findIdx (fun p => decide (key < p))) 0
        = c.sortedHashes.get ⟨c.sortedHashes.findIdx (fun p => decide (key < p)),
            hfi⟩ :=
      getD_eq_get _ _ _ hfi
    have hkey : key < c.sortedHashes.get
        ⟨c.sortedHashes.findIdx (fun p => decide (key < p)), hfi⟩ := by
      have h9 := @List.findIdx_getElem _ (fun p => decide (key < p))
        c.sortedHashes hfi
      simpa [List.get_eq_getElem] using h9
    refine ⟨?_, ?_, ?_, ?_⟩
    · rw [hsel]
      exact List.get_mem _ _ _
    · intro h hmem hkh
      obtain ⟨ih, hihe⟩ := List.mem_iff_get.mp hmem
      rw [hsel]
      by_cases hlt : ih.1 < c.sortedHashes.findIdx (fun p => decide (key < p))
      · exfalso
        have h9 := @List.not_of_lt_findIdx _ (fun p => decide (key < p))
          c.sortedHashes ih.1 hlt
        rw [List.get_eq_getElem] at hihe
        rw [hihe] at h9
        simp [hkh] at h9
      · rw [← hihe]
        have h8 := sorted_getElem_le c.sortedHashes hs
          (c.sortedHashes.findIdx (fun p => decide (key < p))) ih.1
          (by omega) ih.2
        exact h8
    · intro _
      rw [hsel]
      exact hkey
    · intro hno
      exfalso
      refine hno ⟨_, ?_, hkey⟩
      exact List.get_mem _ _ _
  · have hfie : c.sortedHashes.findIdx (fun p => decide (key < p))
        = c.sortedHashes.length := by
      have h9 := @List.findIdx_le_length _ (fun p => decide (key < p))
        c.sortedHashes
      omega
    have hall : ∀ h ∈ c.sortedHashes, ¬ key < h := by
      intro h hmem
      have := List.findIdx_eq_length.mp hfie h hmem
      simpa using this
    rw [if_pos (by omega)]
    have hsel : c.sortedHashes.getD 0 0 = c.sortedHashes.get ⟨0, hlenpos⟩ :=
      getD_eq_get _ _ _ hlenpos
    refine ⟨?_, ?_, ?_, ?_⟩
    · rw [hsel]
      exact List.get_mem _ _ _
    · intro h hmem hkh
      exact absurd hkh (hall h hmem)
    · intro hex
      obtain ⟨h, hmem, hkh⟩ := hex
      exact absurd hkh (hall h hmem)
    · intro _ h hmem
      obtain ⟨ih, hihe⟩ := List.mem_iff_get.mp hmem
      rw [hsel, ← hihe]
      have h8 := sorted_getElem_le c.sortedHashes hs 0 ih.1 (by omega) ih.2
      exact h8

/-- The four selection properties determine the selected position
uniquely. -/
theorem sel_unique (l : List Nat) (key s1 s2 : Nat)
    (m1 : s1 ∈ l) (b1 : ∀ h ∈ l, key < h → s1 ≤ h)
    (g1 : (∃ h ∈ l, key < h) → key < s1)
    (w1 : (¬ ∃ h ∈ l, key < h) → ∀ h ∈ l, s1 ≤ h)
    (m2 : s2 ∈ l) (b2 : ∀ h ∈ l, key < h → s2 ≤ h)
    (g2 : (∃ h ∈ l, key < h) → key < s2)
    (w2 : (¬ ∃ h ∈ l, key < h) → ∀ h ∈ l, s2 ≤ h) : s1 = s2 := by
  by_cases hex : ∃ h ∈ l, key < h
  · exact le_antisymm (b1 s2 m2 (g2 hex)) (b2 s1 m1 (g1 hex))
  · exact le_antisymm (w1 hex s2 m2) (w2 hex s1 m1)

/-- C9: minimal remapping.  If the replica positions of the node being
removed are occupied only by that node (no hash collision with another
node, which the 32-bit hash makes overwhelmingly likely and which
holds in every test of the repository), then every key that Get did
not map to the removed node keeps exactly the same Get result after
Remove. -/
theorem claim_C9_minimal_remapping (c : Consistent) (name elt x : String)
    (h1 : c.sortedHashes = sortNat (c.circle.map Prod.fst))
    (hocc : ∀ p ∈ c.circle,
      p.1 ∈ (List.range c.numberOfReplicas).map
        (fun i => c.hashKey (Consistent.eltKey elt i)) → p.2 = elt)
    (hget : c.get name = some x) (hxelt : x ≠ elt) :
    (c.remove elt).get name = some x := by
  set key := c.hashKey name with hkeydef
  set RH := (List.range c.numberOfReplicas).map
    (fun i => c.hashKey (Consistent.eltKey elt i)) with hRH
  have hEmpty : c.circle.isEmpty = false := by
    cases hcc : c.circle with
    | nil =>
      rw [Consistent.get] at hget
      simp [hcc] at hget
    | cons p t => rfl
  have hcne : c.circle ≠ [] := by
    cases hcc : c.circle with
    | nil => rw [hcc] at hEmpty; simp [List.isEmpty] at hEmpty
    | cons p t => simp
  have hx : lookupD c.circle (c.sortedHashes.getD (c.search key) 0) = x := by
    simp only [Consistent.get, hEmpty, Bool.false_eq_true, if_false,
      Option.some.injEq] at hget
    exact hget
  have hs : List.Sorted (fun a b => a ≤ b) c.sortedHashes := by
    rw [h1]
    exact sortNat_sorted_le _
  have hBmemIff : ∀ z, z ∈ c.sortedHashes ↔ z ∈ c.circle.map Prod.fst := by
    intro z
    rw [h1]
    exact (sortNat_perm _).mem_iff
  have hkeyNE : c.sortedHashes ≠ [] := by
    intro habs
    cases hcc : c.circle with
    | nil => exact hcne hcc
    | cons p t =>
      have : p.1 ∈ c.sortedHashes := (hBmemIff p.1).mpr (by simp [hcc])
      rw [habs] at this
      simp at this
  obtain ⟨mB, bB, gB, wB⟩ := search_sel_spec c key hs hkeyNE
  set selB := c.sortedHashes.getD (c.search key) 0 with hselB
  have hmemK : selB ∈ c.circle.map Prod.fst := (hBmemIff selB).mp mB
  have hisSome : (c.circle.find? (fun e => decide (e.1 = selB))).isSome := by
    rw [List.find?_isSome]
    obtain ⟨p, hp, hpe⟩ := List.mem_map.mp hmemK
    exact ⟨p, hp, by simp [hpe]⟩
  obtain ⟨q, hqfind⟩ := Option.isSome_iff_exists.mp hisSome
  have hq1 : q.1 = selB := by simpa using List.find?_some hqfind
  have hqmem : q ∈ c.circle := List.mem_of_find?_eq_some hqfind
  have hlook : lookupD c.circle selB = q.2 := by
    unfold lookupD
    rw [hqfind]
    rfl
  have hselRH : selB ∉ RH := by
    intro habs
    have hq2 : q.2 = elt := hocc q hqmem (by rw [hq1]; exact habs)
    rw [hlook, hq2] at hx
    exact hxelt hx.symm
  have hcirc : (c.remove elt).circle
      = c.circle.filter (fun p => decide (p.1 ∉ RH)) := by
    show (List.range c.numberOfReplicas).foldl
      (fun m i => assocErase m (c.hashKey (Consistent.eltKey elt i))) c.circle = _
    rw [← List.foldl_map (fun i => c.hashKey (Consistent.eltKey elt i)) assocErase]
    rw [← hRH]
    exact foldl_assocErase RH c.circle
  have hkeys2 : (c.remove elt).circle.map Prod.fst
      = (c.circle.map Prod.fst).filter (fun k => decide (k ∉ RH)) := by
    rw [hcirc]
    exact map_fst_filter (fun k => decide (k ∉ RH)) c.circle
  have hhashes : (c.remove elt).sortedHashes
      = sortNat ((c.remove elt).circle.map Prod.fst) := rfl
  have hAmemIff : ∀ z, z ∈ (c.remove elt).sortedHashes ↔
      z ∈ c.circle.map Prod.fst ∧ z ∉ RH := by
    intro z
    rw [hhashes, (sortNat_perm _).mem_iff, hkeys2, List.mem_filter]
    simp
  have hmemA : selB ∈ (c.remove elt).sortedHashes :=
    (hAmemIff selB).mpr ⟨hmemK, hselRH⟩
  have hsorted2 : List.Sorted (fun a b => a ≤ b) (c.remove elt).sortedHashes := by
    rw [hhashes]
    exact sortNat_sorted_le _
  have hne2 : (c.remove elt).sortedHashes ≠ [] := List.ne_nil_of_mem hmemA
  obtain ⟨mA, bA, gA, wA⟩ := search_sel_spec (c.remove elt) key hsorted2 hne2
  set selA := (c.remove elt).sortedHashes.getD ((c.remove elt).search key) 0
    with hselA
  have hAtoB : ∀ z, z ∈ (c.remove elt).sortedHashes → z ∈ c.sortedHashes := by
    intro z hz
    exact (hBmemIff z).mpr ((hAmemIff z).mp hz).1
  have hselAB : selA = selB := by
    refine sel_unique (c.remove elt).sortedHashes key selA selB mA bA gA wA
      hmemA ?_ ?_ ?_
    · intro h hmem hkh
      exact bB h (hAtoB h hmem) hkh
    · intro hex
      obtain ⟨h, hmem, hkh⟩ := hex
      exact gB ⟨h, hAtoB h hmem, hkh⟩
    · intro hno h hmem
      by_cases hexB : ∃ hh ∈ c.sortedHashes, key < hh
      · exact absurd ⟨selB, hmemA, gB hexB⟩ hno
      · exact wB hexB h (hAtoB h hmem)
  have hEmpty2 : (c.remove elt).circle.isEmpty = false := by
    cases hcc : (c.remove elt).circle with
    | nil =>
      exfalso
      have := (hAmemIff selB).mpr ⟨hmemK, hselRH⟩
      rw [hhashes, hcc] at this
      simp [sortNat] at this
    | cons p t => rfl
  have hlook2 : lookupD (c.remove elt).circle selB = lookupD c.circle selB := by
    unfold lookupD
    rw [hcirc]
    rw [find?_filter_eq (fun e => decide (e.1 = selB))
      (fun p => decide (p.1 ∉ RH)) c.circle ?_]
    intro e hemem hpe
    have he1 : e.1 = selB := by simpa using hpe
    simp [he1, hselRH]
  simp only [Consistent.get, hEmpty2, Bool.false_eq_true, if_false,
    Option.some.injEq]
  show lookupD (c.remove elt).circle selA = x
  rw [hselAB, hlook2, hx]

set_option maxRecDepth 1000000 in
theorem claim_C9_minimal_remapping_witness :
    (ringAOH.remove "hijklmn").get "ggg" = some "abcdefg" :=
  claim_C9_minimal_remapping ringAOH "ggg" "hijklmn" "abcdefg"
    (by decide) (by decide) (by decide) (by decide)
